import Mathlib

/-!
Shallow embedding of the indicator and web pipeline code of the
`binance_ema_ma` repository, with theorems checking its specification.

Numeric values are modelled by `ℚ` (the Python code computes with floats;
the properties under check are exact recurrences, stated "within
floating-point tolerance" by the spec, so the exact-arithmetic model is the
faithful idealization).  Python's `None` entries become `Option ℚ`.
Python exceptions become `Except String`.
-/

namespace BinanceEmaMa

/-! ## indicators.py -/

/-- Loop body of `sma` (indicators.py lines 11-23): iterate over the values,
maintaining the `window` list; append, pop the front when the window exceeds
`period`, emit `None` while the window is short of `period`, else the mean.
When `period = 0` the mean `sum(window)/period` raises `ZeroDivisionError`
in Python, modelled by `Except.error`. -/
def smaGo (period : ℤ) : List ℚ → List ℚ → Except String (List (Option ℚ))
  | _, [] => .ok []
  | window, v :: rest =>
    let w1 := window ++ [v]
    let w2 := if period < (w1.length : ℤ) then w1.tail else w1
    if (w2.length : ℤ) < period then
      (smaGo period w2 rest).map (fun out => none :: out)
    else if period = 0 then .error "ZeroDivisionError: division by zero"
    else (smaGo period w2 rest).map (fun out => some (w2.sum / (period : ℚ)) :: out)

/-- Model of `sma(values, period)` from indicators.py: simple moving average, output
as long as the input, early entries `None`. -/
def sma (values : List ℚ) (period : ℤ) : Except String (List (Option ℚ)) :=
  smaGo period [] values

/-- Loop body of `ema` (indicators.py lines 35-53).  `i` is the running
index of the enumeration, `emaPrev` the `ema_prev` variable, `rest` the
values still to be processed; `values` is the whole original list, used by
the seed branch `values[:period]`.  `ema` only calls this with
`period ≥ 1`, for which Python's `i < period - 1` and `i == period - 1`
are `i + 1 < period` and `i + 1 = period`. -/
def emaGo (values : List ℚ) (period : ℕ) (k : ℚ) : List ℚ → ℕ → Option ℚ → List (Option ℚ)
  | [], _, _ => []
  | v :: rest, i, emaPrev =>
    if i + 1 < period then
      none :: emaGo values period k rest (i + 1) emaPrev
    else if i + 1 = period then
      let e := (values.take period).sum / (period : ℚ)
      some e :: emaGo values period k rest (i + 1) (some e)
    else
      let e := v * k + (emaPrev.getD v) * (1 - k)
      some e :: emaGo values period k rest (i + 1) (some e)

/-- Model of `ema(values, period)` from indicators.py: raises
`ValueError("period must be > 0")` for `period ≤ 0`, else runs the loop
with `k = 2/(period+1)` starting at index `0` with `ema_prev = None`. -/
def ema (values : List ℚ) (period : ℤ) : Except String (List (Option ℚ)) :=
  if period ≤ 0 then .error "period must be > 0"
  else .ok (emaGo values period.toNat (2 / ((period : ℚ) + 1)) values 0 none)

/-- The `CrossSignal` dataclass from indicators.py. -/
structure CrossSignal where
  golden_cross : Bool
  death_cross : Bool
deriving DecidableEq

/-- Model of `crossover(ema_list, ma_list)` from indicators.py lines 62-80: look at
the last two entries of each list (Python `l[-2]`, `l[-1]`, modelled by
`getD (length - 2)` / `getD (length - 1)`, in range because the length
checks precede them); all four must be non-`None`. -/
def crossover (ema_list ma_list : List (Option ℚ)) : CrossSignal :=
  if ema_list.isEmpty ∨ ma_list.isEmpty then ⟨false, false⟩
  else if ema_list.length < 2 ∨ ma_list.length < 2 then ⟨false, false⟩
  else
    let prev_ema := ema_list.getD (ema_list.length - 2) none
    let curr_ema := ema_list.getD (ema_list.length - 1) none
    let prev_ma := ma_list.getD (ma_list.length - 2) none
    let curr_ma := ma_list.getD (ma_list.length - 1) none
    match prev_ema, curr_ema, prev_ma, curr_ma with
    | some pe, some ce, some pm, some cm =>
      ⟨decide (pe ≤ pm ∧ cm < ce), decide (pm ≤ pe ∧ ce < cm)⟩
    | _, _, _, _ => ⟨false, false⟩

/-- The local `vals = [v for v in series[-lookback:] if v is not None]`
shared by `ema_slope` and `slope_ok`: the last `lookback` entries
(`drop (length - lookback)`) with the `None` entries filtered out
(`filterMap id`). -/
def slopeVals (series : List (Option ℚ)) (lookback : ℕ) : List ℚ :=
  (series.drop (series.length - lookback)).filterMap id

/-- The `mode == "linreg"` branch of `ema_slope` (indicators.py lines
110-120): ordinary-least-squares slope of `vals` against `x = 0..n-1`,
`None` when `var_x` is zero. -/
def linregSlope (vals : List ℚ) : Option ℚ :=
  let n := vals.length
  let xs := (List.range n).map (fun x : ℕ => (x : ℚ))
  let mean_x := xs.sum / (n : ℚ)
  let mean_y := vals.sum / (n : ℚ)
  let var_x := (xs.map (fun x => (x - mean_x) ^ 2)).sum
  if var_x = 0 then none
  else
    let cov_xy := ((List.range n).map
      (fun i => (xs.getD i 0 - mean_x) * (vals.getD i 0 - mean_y))).sum
    some (cov_xy / var_x)

/-- The default `mean_diff` branch of `ema_slope` (indicators.py lines
122-124): mean of the first differences of `vals`. -/
def meanDiffSlope (vals : List ℚ) : ℚ :=
  let diffs := (List.range (vals.length - 1)).map
    (fun i => vals.getD (i + 1) 0 - vals.getD i 0)
  diffs.sum / (diffs.length : ℚ)

/-- Model of `ema_slope(series, lookback, mode, normalize_by_ema)` from
indicators.py lines 91-128.  `curr = vals[-1]` is `getLastD 0` (only
consulted when `vals` is nonempty, which the preceding length check
guarantees); Python's `normalize_by_ema and curr and curr != 0` is
`normalize_by_ema ∧ curr ≠ 0` since a float is falsy exactly when it
equals zero. -/
def ema_slope (series : List (Option ℚ)) (lookback : ℤ) (mode : String)
    (normalize_by_ema : Bool) : Option ℚ :=
  if lookback < 2 then none
  else
    let vals := slopeVals series lookback.toNat
    if (vals.length : ℤ) < lookback then none
    else
      let curr := vals.getLastD 0
      let slope :=
        if mode = "linreg" then linregSlope vals
        else some (meanDiffSlope vals)
      match slope with
      | none => none
      | some s => if normalize_by_ema ∧ curr ≠ 0 then some (s / curr) else some s

/-- Model of `slope_ok(series, lookback, min_slope, mode, normalize_by_ema,
strict_monotonic)` from indicators.py lines 131-150.  Python's
`float(min_slope)` is the identity here. -/
def slope_ok (series : List (Option ℚ)) (lookback : ℤ) (min_slope : ℚ)
    (mode : String) (normalize_by_ema : Bool) (strict_monotonic : Bool) :
    Bool × Bool :=
  match ema_slope series lookback mode normalize_by_ema with
  | none => (false, false)
  | some s =>
    let long_ok := decide (min_slope ≤ s)
    let short_ok := decide (s ≤ -min_slope)
    if strict_monotonic then
      let vals := slopeVals series lookback.toNat
      if (vals.length : ℤ) < lookback then (false, false)
      else
        let inc_ok := (List.range (vals.length - 1)).all
          (fun i => decide (vals.getD i 0 < vals.getD (i + 1) 0))
        let dec_ok := (List.range (vals.length - 1)).all
          (fun i => decide (vals.getD (i + 1) 0 < vals.getD i 0))
        (long_ok && inc_ok, short_ok && dec_ok)
    else (long_ok, short_ok)

/-! ## web_main.py: broadcast queue

`events_q = queue.Queue(maxsize=1000)` (web_main.py line 279); producers in
`on_kline` (lines 59-70) and the poller body (lines 123-131) call
`events_q.put_nowait(s)` inside a `try: ... except Exception: pass`. -/

/-- A Python `queue.Queue`: `maxsize` and the queued items in FIFO order. -/
structure BQueue (α : Type) where
  maxsize : ℕ
  items : List α
deriving DecidableEq

/-- Model of `Queue.put_nowait`: raises `queue.Full` (modelled by `Except.error ()`)
when `0 < maxsize` and the queue already holds `maxsize` items, else appends
the item and returns immediately. -/
def put_nowait {α : Type} (q : BQueue α) (a : α) : Except Unit (BQueue α) :=
  if 0 < q.maxsize ∧ q.maxsize ≤ q.items.length then .error ()
  else .ok ⟨q.maxsize, q.items ++ [a]⟩

/-- The producer-side offer in `on_kline` / the poller body:
`put_nowait` wrapped in `except Exception: pass`, so an overflow leaves the
queue unchanged and raises nothing to the caller. -/
def offer_snapshot {α : Type} (q : BQueue α) (a : α) : BQueue α :=
  match put_nowait q a with
  | .ok q2 => q2
  | .error _ => q

/-- Capacity of `events_q` in `main` (web_main.py line 279). -/
def events_q_maxsize : ℕ := 1000

/-! ## web_main.py: failover controller

`start_ws` (lines 44-93) wires WS callbacks to `start_poller_once` /
`stop_poller_if_running`, which share the one-slot dict `poller_stop`.
`start_price_poller` (lines 96-138) starts a daemon thread looping
`while not stop_flag.is_set(): ...; time.sleep(2)` and returns `stop_flag`,
a `threading.Event`. -/

/-- One fallback poller thread: its identity and whether its
`stop_flag` Event has been set (`stop_flag.set()`); while the flag is unset
the thread keeps issuing poll ticks every 2 seconds. -/
structure PollerLoop where
  id : ℕ
  stopFlagSet : Bool
deriving DecidableEq

/-- State of the closures of `start_ws`: `pollerSlot` is
`poller_stop["fn"]` (the id of the Event it holds, `none` when cleared),
`loops` records every poller thread started so far, `nextId` names the next
one. -/
structure WsState where
  pollerSlot : Option ℕ
  loops : List PollerLoop
  nextId : ℕ
deriving DecidableEq

/-- Channel events delivered to the `start_ws` callbacks. -/
inductive WsEvent where
  | primary_opened
  | primary_error
  | primary_closed
deriving DecidableEq

/-- Initial state: `poller_stop = {"fn": None}`, no poller thread. -/
def wsInit : WsState := ⟨none, [], 0⟩

/-- Model of `start_poller_once` (web_main.py lines 46-49): only when the slot is
empty and fallback is enabled, start a fresh poller thread (its stop Event
unset) and store its Event in the slot. -/
def start_poller_once (enable_fallback_poller : Bool) (s : WsState) : WsState :=
  if s.pollerSlot = none ∧ enable_fallback_poller then
    ⟨some s.nextId, s.loops ++ [⟨s.nextId, false⟩], s.nextId + 1⟩
  else s

/-- Model of `stop_poller_if_running` (web_main.py lines 51-57): when the slot is
occupied it runs `poller_stop["fn"]()` — but the slot holds the
`threading.Event` returned by `start_price_poller`, and an Event is not
callable, so the call raises `TypeError`, swallowed by
`except Exception: pass`; the Event is never set.  Then the slot is
cleared.  Hence the poller loop's stop flag is left untouched. -/
def stop_poller_if_running (s : WsState) : WsState :=
  if s.pollerSlot.isSome then ⟨none, s.loops, s.nextId⟩ else s

/-- Dispatch of one channel event by the `start_ws` callbacks:
`on_open` stops the poller, `on_error` and `on_close` start it once. -/
def wsStep (enable_fallback_poller : Bool) (s : WsState) : WsEvent → WsState
  | .primary_opened => stop_poller_if_running s
  | .primary_error => start_poller_once enable_fallback_poller s
  | .primary_closed => start_poller_once enable_fallback_poller s

/-- Run a sequence of channel events from a state. -/
def wsRun (enable_fallback_poller : Bool) (s : WsState) (evs : List WsEvent) :
    WsState :=
  evs.foldl (wsStep enable_fallback_poller) s

/-- A poll tick can still fire iff some started poller thread has its stop
Event unset (`while not stop_flag.is_set()` keeps looping). -/
def canPollTick (s : WsState) : Bool :=
  s.loops.any (fun l => ! l.stopFlagSet)

/-! ## Theorems -/

/-- Offering a snapshot never changes the queue capacity. -/
theorem offer_snapshot_maxsize {α : Type} (q : BQueue α) (a : α) :
    (offer_snapshot q a).maxsize = q.maxsize := by
  unfold offer_snapshot put_nowait
  by_cases h : 0 < q.maxsize ∧ q.maxsize ≤ q.items.length
  · rw [if_pos h]
  · rw [if_neg h]

/-- Offering a snapshot keeps the queue within its capacity. -/
theorem offer_snapshot_length_le {α : Type} (q : BQueue α) (a : α)
    (hpos : 0 < q.maxsize) (hle : q.items.length ≤ q.maxsize) :
    (offer_snapshot q a).items.length ≤ q.maxsize := by
  unfold offer_snapshot put_nowait
  by_cases h : 0 < q.maxsize ∧ q.maxsize ≤ q.items.length
  · rw [if_pos h]; exact hle
  · rw [if_neg h]
    simp only [List.length_append, List.length_cons, List.length_nil]
    omega

/-- C9: the producer's `put_nowait` on `events_q` is non-blocking — on a
full queue it raises `queue.Full` at once (no wait is possible), the
surrounding `except` swallows it and the producer continues with the queue
unchanged — and offering any sequence of snapshots never grows the queue
beyond its configured capacity. -/
theorem events_q_nonblocking_bounded {α : Type} (q : BQueue α)
    (snaps : List α) (a : α) (hpos : 0 < q.maxsize)
    (hle : q.items.length ≤ q.maxsize) :
    (snaps.foldl offer_snapshot q).items.length ≤ q.maxsize ∧
      (q.maxsize ≤ q.items.length →
        put_nowait q a = .error () ∧ offer_snapshot q a = q) := by
  constructor
  · induction snaps generalizing q with
    | nil => exact hle
    | cons b rest ih =>
      have h1 := offer_snapshot_maxsize q b
      have h2 := offer_snapshot_length_le q b hpos hle
      have := ih (offer_snapshot q b) (by omega) (by omega)
      simpa [h1] using this
  · intro hfull
    have herr : put_nowait q a = .error () := by
      unfold put_nowait
      rw [if_pos ⟨hpos, hfull⟩]
    exact ⟨herr, by unfold offer_snapshot; rw [herr]⟩

/-- Witness for C9 at a concrete full queue of capacity two. -/
theorem events_q_nonblocking_bounded_witness :
    (([7, 8, 9] : List ℕ).foldl offer_snapshot ⟨2, [5, 6]⟩).items.length ≤ 2 ∧
      ((2 : ℕ) ≤ ([5, 6] : List ℕ).length →
        put_nowait (⟨2, [5, 6]⟩ : BQueue ℕ) 7 = .error () ∧
          offer_snapshot (⟨2, [5, 6]⟩ : BQueue ℕ) 7 = ⟨2, [5, 6]⟩) :=
  events_q_nonblocking_bounded (⟨2, [5, 6]⟩ : BQueue ℕ) [7, 8, 9] 7
    (by decide) (by decide)

/-- C10: on overflow the new snapshot itself is dropped (drop-newest): an
offer against a full queue returns the queue unchanged — no element is
evicted — and, being a plain function return, raises nothing to the
caller. -/
theorem offer_snapshot_drop_newest {α : Type} (q : BQueue α) (a : α)
    (hpos : 0 < q.maxsize) (hfull : q.items.length = q.maxsize) :
    offer_snapshot q a = q := by
  unfold offer_snapshot put_nowait
  rw [if_pos ⟨hpos, le_of_eq hfull.symm⟩]

/-- Witness for C10 at a concrete full queue. -/
theorem offer_snapshot_drop_newest_witness :
    offer_snapshot (⟨1, [42]⟩ : BQueue ℕ) 7 = ⟨1, [42]⟩ :=
  offer_snapshot_drop_newest (⟨1, [42]⟩ : BQueue ℕ) 7 (by decide) (by decide)

/-- C8 (code bug): repeated `primary_error` events do start the fallback
loop exactly once, but the subsequent `primary_opened` fails to stop it —
`stop_poller_if_running` calls the stored `threading.Event` as a function,
the `TypeError` is swallowed and the Event is never set — so after the
stop call returns the started loop still has its stop flag unset and poll
ticks keep firing; a further `primary_error` then starts a second
concurrent loop. -/
theorem failover_stop_leaves_loop_running :
    (wsRun true wsInit
        [.primary_error, .primary_error, .primary_closed]).loops.length = 1 ∧
      wsRun true wsInit [.primary_error, .primary_opened] =
        ⟨none, [⟨0, false⟩], 1⟩ ∧
      canPollTick (wsRun true wsInit [.primary_error, .primary_opened]) = true ∧
      (wsRun true wsInit
          [.primary_error, .primary_opened, .primary_error]).loops =
        [⟨0, false⟩, ⟨1, false⟩] := by
  decide

/-- C3 counterexample: invalid parameters are not uniformly rejected by
raising — `ema_slope` with `lookback = 1 < 2` returns the normal undefined
result `None` instead of raising, and `sma` with `period = -1 ≤ 0` returns
a normal list (Python `[-0.0]`) with no validation at all. -/
theorem invalid_params_not_raised_cex :
    ema_slope [some 1, some 2, some 3] 1 "mean_diff" true = none ∧
      sma [1] (-1) = .ok [some 0] := by
  constructor
  · rfl
  · simp [sma, smaGo, Except.map]

/-- C3 amended: only `ema` rejects `period ≤ 0` eagerly by raising
`ValueError`; `ema_slope` with `lookback < 2` returns `None` (a normal
undefined result) rather than raising; `sma` performs no parameter
validation and for `period = -1` returns a normal list. -/
theorem invalid_params_amended (values : List ℚ) (period : ℤ)
    (series : List (Option ℚ)) (lookback : ℤ) (mode : String) (nrm : Bool)
    (hper : period ≤ 0) (hlb : lookback < 2) :
    ema values period = .error "period must be > 0" ∧
      ema_slope series lookback mode nrm = none ∧
      sma [1] (-1) = .ok [some 0] := by
  refine ⟨?_, ?_, by simp [sma, smaGo, Except.map]⟩
  · unfold ema
    rw [if_pos hper]
  · unfold ema_slope
    rw [if_pos hlb]

/-- Witness for the amended C3 at concrete invalid parameters. -/
theorem invalid_params_amended_witness :
    ema [1, 2] 0 = .error "period must be > 0" ∧
      ema_slope [some 1] 1 "linreg" true = none ∧
      sma [1] (-1) = .ok [some 0] :=
  invalid_params_amended [1, 2] 0 [some 1] 1 "linreg" true
    (by decide) (by decide)

/-- C4: with at least two entries in each list and the last two (EMA, MA)
pairs defined, `golden_cross` holds iff `prev_EMA ≤ prev_MA` and
`curr_EMA > curr_MA`, `death_cross` iff the mirrored inequalities; both
are false whenever any of the four values is undefined or a list is
shorter than two; and
`crossover(ema=[...,10,12], ma=[...,11,11])` yields
`golden_cross=True`, `death_cross=False`. -/
theorem crossover_spec (e m e2 m2 : List (Option ℚ)) (pe ce pm cm : ℚ)
    (he : 2 ≤ e.length) (hm : 2 ≤ m.length)
    (hpe : e.getD (e.length - 2) none = some pe)
    (hce : e.getD (e.length - 1) none = some ce)
    (hpm : m.getD (m.length - 2) none = some pm)
    (hcm : m.getD (m.length - 1) none = some cm)
    (hundef : e2.getD (e2.length - 2) none = none ∨
      e2.getD (e2.length - 1) none = none ∨
      m2.getD (m2.length - 2) none = none ∨
      m2.getD (m2.length - 1) none = none ∨
      e2.length < 2 ∨ m2.length < 2) :
    ((crossover e m).golden_cross = true ↔ (pe ≤ pm ∧ cm < ce)) ∧
      ((crossover e m).death_cross = true ↔ (pm ≤ pe ∧ ce < cm)) ∧
      crossover e2 m2 = ⟨false, false⟩ ∧
      crossover [some 10, some 12] [some 11, some 11] = ⟨true, false⟩ := by
  have hmain : crossover e m = ⟨decide (pe ≤ pm ∧ cm < ce), decide (pm ≤ pe ∧ ce < cm)⟩ := by
    unfold crossover
    rw [if_neg (by simp [List.isEmpty_iff]; constructor <;> (intro hnil; subst hnil; simp_all))]
    rw [if_neg (by omega)]
    rw [hpe, hce, hpm, hcm]
  refine ⟨by rw [hmain]; simp, by rw [hmain]; simp, ?_, by decide⟩
  unfold crossover
  by_cases h1 : (e2.isEmpty : Prop) ∨ (m2.isEmpty : Prop)
  · rw [if_pos h1]
  · rw [if_neg h1]
    by_cases h2 : e2.length < 2 ∨ m2.length < 2
    · rw [if_pos h2]
    · rw [if_neg h2]
      rcases ha1 : e2.getD (e2.length - 2) none with _ | a1 <;>
        rcases ha2 : e2.getD (e2.length - 1) none with _ | a2 <;>
          rcases ha3 : m2.getD (m2.length - 2) none with _ | a3 <;>
            rcases ha4 : m2.getD (m2.length - 1) none with _ | a4 <;>
              first
                | rfl
                | (rcases hundef with h | h | h | h | h | h <;> simp_all)

/-- Witness for C4 at concrete lists (including an undefined pair). -/
theorem crossover_spec_witness :
    ((crossover [some 10, some 12] [some 11, some 11]).golden_cross = true ↔
        ((10 : ℚ) ≤ 11 ∧ (11 : ℚ) < 12)) ∧
      ((crossover [some 10, some 12] [some 11, some 11]).death_cross = true ↔
        ((11 : ℚ) ≤ 10 ∧ (12 : ℚ) < 11)) ∧
      crossover [none, some 1] [some 1, some 1] = ⟨false, false⟩ ∧
      crossover [some 10, some 12] [some 11, some 11] = ⟨true, false⟩ :=
  crossover_spec [some 10, some 12] [some 11, some 11] [none, some 1]
    [some 1, some 1] 10 12 11 11 (by decide) (by decide) (by decide)
    (by decide) (by decide) (by decide) (Or.inl (by decide))

/-- The EMA loop output is as long as its remaining input. -/
theorem emaGo_length (values : List ℚ) (p : ℕ) (k : ℚ) :
    ∀ (rest : List ℚ) (i : ℕ) (prev : Option ℚ),
      (emaGo values p k rest i prev).length = rest.length := by
  intro rest
  induction rest with
  | nil => intro i prev; rfl
  | cons v r ih =>
    intro i prev
    simp only [emaGo]
    split
    · simp [ih]
    · split
      · simp [ih]
      · simp [ih]

/-- Elements of the EMA loop output strictly before the seed point are
`None`.  `i` is the index already consumed, `j` the offset into `rest`. -/
theorem emaGo_getElem_undef (values : List ℚ) (p : ℕ) (k : ℚ) :
    ∀ (j : ℕ) (rest : List ℚ) (i : ℕ) (prev : Option ℚ),
      j < rest.length → i + j + 1 < p →
      (emaGo values p k rest i prev)[j]? = some none := by
  intro j
  induction j with
  | zero =>
    intro rest i prev hj hlt
    cases rest with
    | nil => simp at hj
    | cons v r =>
      simp only [emaGo]
      rw [if_pos (by omega)]
      exact List.getElem?_cons_zero
  | succ j ih =>
    intro rest i prev hj hlt
    cases rest with
    | nil => simp at hj
    | cons v r =>
      simp only [emaGo]
      rw [if_pos (by omega)]
      rw [List.getElem?_cons_succ]
      exact ih r (i + 1) prev (by simpa using hj) (by omega)

/-- The element of the EMA loop output at the seed point is the SMA of the
first `p` values of the whole input. -/
theorem emaGo_getElem_seed (values : List ℚ) (p : ℕ) (k : ℚ) :
    ∀ (j : ℕ) (rest : List ℚ) (i : ℕ) (prev : Option ℚ),
      j < rest.length → i + j + 1 = p →
      (emaGo values p k rest i prev)[j]? =
        some (some ((values.take p).sum / (p : ℚ))) := by
  intro j
  induction j with
  | zero =>
    intro rest i prev hj heq
    cases rest with
    | nil => simp at hj
    | cons v r =>
      simp only [emaGo]
      rw [if_neg (by omega), if_pos (by omega)]
      exact List.getElem?_cons_zero
  | succ j ih =>
    intro rest i prev hj heq
    cases rest with
    | nil => simp at hj
    | cons v r =>
      simp only [emaGo]
      rw [if_pos (by omega)]
      rw [List.getElem?_cons_succ]
      exact ih r (i + 1) prev (by simpa using hj) (by omega)

/-- Past the seed point, consecutive elements of the EMA loop output are
linked by the recurrence `out[j+1] = rest[j+1]·k + out[j]·(1-k)`, and both
are defined. -/
theorem emaGo_getElem_step (values : List ℚ) (p : ℕ) (k : ℚ) :
    ∀ (j : ℕ) (rest : List ℚ) (i : ℕ) (prev : Option ℚ),
      j + 1 < rest.length → p ≤ i + j + 1 →
      ∃ e, (emaGo values p k rest i prev)[j]? = some (some e) ∧
        (emaGo values p k rest i prev)[j + 1]? =
          some (some (rest.getD (j + 1) 0 * k + e * (1 - k))) := by
  intro j
  induction j with
  | zero =>
    intro rest i prev h1 hp
    match rest, h1 with
    | v :: v2 :: r, _ =>
      by_cases hseed : i + 1 = p
      · refine ⟨(values.take p).sum / (p : ℚ), ?_, ?_⟩
        · simp only [emaGo]
          rw [if_neg (by omega), if_pos hseed]
          exact List.getElem?_cons_zero
        · simp only [emaGo]
          rw [if_neg (by omega), if_pos hseed]
          rw [List.getElem?_cons_succ]
          rw [if_neg (by omega), if_neg (by omega)]
          simp [List.getD]
      · refine ⟨v * k + (prev.getD v) * (1 - k), ?_, ?_⟩
        · simp only [emaGo]
          rw [if_neg (by omega), if_neg (by omega)]
          exact List.getElem?_cons_zero
        · simp only [emaGo]
          rw [if_neg (by omega), if_neg (by omega)]
          rw [List.getElem?_cons_succ]
          rw [if_neg (by omega), if_neg (by omega)]
          simp [List.getD]
  | succ j ih =>
    intro rest i prev h1 hp
    cases rest with
    | nil => simp at h1
    | cons v r =>
      have h1' : j + 1 < r.length := by simpa using h1
      have hp' : p ≤ (i + 1) + j + 1 := by omega
      simp only [emaGo]
      split
      · simpa [List.getD_cons_succ] using ih r (i + 1) prev h1' hp'
      · split
        · simpa [List.getD_cons_succ] using ih r (i + 1) _ h1' hp'
        · simpa [List.getD_cons_succ] using ih r (i + 1) _ h1' hp'

/-- For positive `p : ℕ`, `ema` returns the loop output. -/
theorem ema_ok (values : List ℚ) (p : ℕ) (hp : 0 < p) :
    ema values (p : ℤ) =
      .ok (emaGo values p (2 / ((p : ℚ) + 1)) values 0 none) := by
  unfold ema
  rw [if_neg (by exact_mod_cast Nat.not_le.mpr hp)]
  norm_num [Int.toNat_natCast]

/-- C1: for `p > 0`, the EMA output has one entry per close; every entry
at index `i1 < p-1` is undefined; the entry at index `p-1` is the SMA of
the first `p` closes; and past the seed every entry `i2 > p-1` equals
`close[i2]·k + EMA[i2-1]·(1-k)` with `k = 2/(p+1)`. -/
theorem ema_seed_and_recurrence (values : List ℚ) (p i1 i2 : ℕ) (hp : 0 < p)
    (hi1 : i1 < values.length) (hi1p : i1 + 1 < p)
    (hseed : p - 1 < values.length)
    (hi2 : i2 < values.length) (hi2p : p ≤ i2) :
    ∃ r, ema values (p : ℤ) = .ok r ∧ r.length = values.length ∧
      r[i1]? = some none ∧
      r[p - 1]? = some (some ((values.take p).sum / (p : ℚ))) ∧
      ∃ e, r[i2 - 1]? = some (some e) ∧
        r[i2]? = some (some (values.getD i2 0 * (2 / ((p : ℚ) + 1)) +
          e * (1 - 2 / ((p : ℚ) + 1)))) := by
  refine ⟨_, ema_ok values p hp, emaGo_length values p _ values 0 none, ?_, ?_, ?_⟩
  · exact emaGo_getElem_undef values p _ i1 values 0 none hi1 (by omega)
  · exact emaGo_getElem_seed values p _ (p - 1) values 0 none hseed (by omega)
  · have hstep := emaGo_getElem_step values p (2 / ((p : ℚ) + 1)) (i2 - 1)
      values 0 none (by omega) (by omega)
    have hi2e : i2 - 1 + 1 = i2 := by omega
    rw [hi2e] at hstep
    exact hstep

/-- Witness for C1: closes `[1, 2, 4, 8]` with period `3`. -/
theorem ema_seed_and_recurrence_witness :
    ∃ r, ema [1, 2, 4, 8] ((3 : ℕ) : ℤ) = .ok r ∧
      r.length = ([1, 2, 4, 8] : List ℚ).length ∧
      r[1]? = some none ∧
      r[3 - 1]? = some (some ((([1, 2, 4, 8] : List ℚ).take 3).sum / ((3 : ℕ) : ℚ))) ∧
      ∃ e, r[3 - 1]? = some (some e) ∧
        r[3]? = some (some (([1, 2, 4, 8] : List ℚ).getD 3 0 * (2 / (((3 : ℕ) : ℚ) + 1)) +
          e * (1 - 2 / (((3 : ℕ) : ℚ) + 1)))) :=
  ema_seed_and_recurrence [1, 2, 4, 8] 3 1 3 (by decide) (by decide)
    (by decide) (by decide) (by decide) (by decide)

/-- Outputs of the EMA loop agree on a common prefix of the remaining
input, provided the two full inputs share their first `p` values whenever
the seed point is reached. -/
theorem emaGo_agree (v1 v2 : List ℚ) (p : ℕ) (k : ℚ) :
    ∀ (rest ext : List ℚ) (i : ℕ) (prev : Option ℚ) (j : ℕ),
      j < rest.length →
      (p ≤ i + rest.length → v1.take p = v2.take p) →
      (emaGo v1 p k (rest ++ ext) i prev)[j]? =
        (emaGo v2 p k rest i prev)[j]? := by
  intro rest
  induction rest with
  | nil => intro ext i prev j hj _; simp at hj
  | cons v r ih =>
    intro ext i prev j hj htake
    simp only [List.cons_append, emaGo]
    by_cases h1 : i + 1 < p
    · rw [if_pos h1, if_pos h1]
      cases j with
      | zero => rw [List.getElem?_cons_zero, List.getElem?_cons_zero]
      | succ j =>
        rw [List.getElem?_cons_succ, List.getElem?_cons_succ]
        exact ih ext (i + 1) prev j (by simpa using hj)
          (fun h => htake (by simp only [List.length_cons]; omega))
    · by_cases h2 : i + 1 = p
      · have hS : v1.take p = v2.take p :=
          htake (by simp only [List.length_cons]; omega)
        rw [if_neg h1, if_neg h1, if_pos h2, if_pos h2, hS]
        cases j with
        | zero => rw [List.getElem?_cons_zero, List.getElem?_cons_zero]
        | succ j =>
          rw [List.getElem?_cons_succ, List.getElem?_cons_succ]
          exact ih ext (i + 1) _ j (by simpa using hj) (fun _ => hS)
      · rw [if_neg h1, if_neg h1, if_neg h2, if_neg h2]
        cases j with
        | zero => rw [List.getElem?_cons_zero, List.getElem?_cons_zero]
        | succ j =>
          rw [List.getElem?_cons_succ, List.getElem?_cons_succ]
          exact ih ext (i + 1) _ j (by simpa using hj)
            (fun h => htake (by simp only [List.length_cons]; omega))

/-- C2: no drift — the EMA computed over the prefix `values.take m` agrees
at every index `i < m` with the EMA computed over the whole list, so
incremental one-bar-at-a-time updates equal batch recomputation at every
prefix length. -/
theorem ema_prefix_no_drift (values : List ℚ) (p m i : ℕ) (hp : 0 < p)
    (hm : m ≤ values.length) (hi : i < m) :
    ∃ r rf, ema (values.take m) (p : ℤ) = .ok r ∧
      ema values (p : ℤ) = .ok rf ∧ r[i]? = rf[i]? := by
  refine ⟨_, _, ema_ok (values.take m) p hp, ema_ok values p hp, ?_⟩
  have hlen : (values.take m).length = m := by
    rw [List.length_take]; omega
  have key := emaGo_agree values (values.take m) p (2 / ((p : ℚ) + 1))
    (values.take m) (values.drop m) 0 none i (by omega)
    (fun h => by
      rw [List.take_take]
      congr 1
      omega)
  rw [List.take_append_drop] at key
  exact key.symm

/-- Witness for C2: closes `[1, 2, 4, 8, 16]`, period `2`, prefix length
`3`, index `2`. -/
theorem ema_prefix_no_drift_witness :
    ∃ r rf, ema (([1, 2, 4, 8, 16] : List ℚ).take 3) ((2 : ℕ) : ℤ) = .ok r ∧
      ema [1, 2, 4, 8, 16] ((2 : ℕ) : ℤ) = .ok rf ∧ r[2]? = rf[2]? :=
  ema_prefix_no_drift [1, 2, 4, 8, 16] 2 3 2 (by decide) (by decide) (by decide)

/-- Error-free unfolding of the `sma` loop: for `period ≠ 0` no
`ZeroDivisionError` can occur and `smaGo` is `Except.ok` of this list
(`smaGo_eq_ok`). -/
def smaOut (period : ℤ) : List ℚ → List ℚ → List (Option ℚ)
  | _, [] => []
  | window, v :: rest =>
    let w1 := window ++ [v]
    let w2 := if period < (w1.length : ℤ) then w1.tail else w1
    (if (w2.length : ℤ) < period then none else some (w2.sum / (period : ℚ)))
      :: smaOut period w2 rest

/-- For `period ≠ 0`, `smaGo` never raises and computes `smaOut`. -/
theorem smaGo_eq_ok (period : ℤ) (hper : period ≠ 0) :
    ∀ (rest window : List ℚ),
      smaGo period window rest = .ok (smaOut period window rest) := by
  intro rest
  induction rest with
  | nil => intro window; rfl
  | cons v r ih =>
    intro window
    simp only [smaGo, smaOut]
    split_ifs
    · rw [ih]; rfl
    · rw [ih]; rfl
    · rw [ih]; rfl
    · rw [ih]; rfl

/-- The `sma` loop emits one output entry per input entry. -/
theorem smaOut_length (period : ℤ) :
    ∀ (rest window : List ℚ), (smaOut period window rest).length = rest.length := by
  intro rest
  induction rest with
  | nil => intro window; rfl
  | cons v r ih =>
    intro window
    simp only [smaOut]
    simp [ih]

/-- One step of the `sma` loop at absolute index `t`: entering with the
window holding the last `min t p` processed values, it emits `None` while
fewer than `p` values were seen, else the mean of the trailing `p`-window,
and continues with the updated window. -/
theorem smaOut_step (values : List ℚ) (p : ℕ) (hp : 0 < p) (t : ℕ)
    (ht : t < values.length) :
    smaOut (p : ℤ) ((values.take t).drop (t - p)) (values.drop t) =
      (if t + 1 < p then none
       else some (((values.take (t + 1)).drop (t + 1 - p)).sum /
         (((p : ℤ)) : ℚ)))
        :: smaOut (p : ℤ) ((values.take (t + 1)).drop (t + 1 - p))
            (values.drop (t + 1)) := by
  have hdrop : values.drop t = values[t] :: values.drop (t + 1) :=
    List.drop_eq_getElem_cons ht
  have htk : values.take (t + 1) = values.take t ++ [values[t]] := by
    rw [List.take_succ, List.getElem?_eq_getElem ht]
    rfl
  have hlt1 : (values.take (t + 1)).length = t + 1 := by
    rw [List.length_take]; omega
  have hw1 : (values.take t).drop (t - p) ++ [values[t]] =
      (values.take (t + 1)).drop (t - p) := by
    rw [htk, List.drop_append_of_le_length (by rw [List.length_take]; omega)]
  have hlenD : ((values.take (t + 1)).drop (t - p)).length = t + 1 - (t - p) := by
    rw [List.length_drop, hlt1]
  rw [hdrop]
  simp only [smaOut]
  rw [hw1]
  rcases le_or_lt p t with hpt | htp
  · have hcondA : (p : ℤ) < (((values.take (t + 1)).drop (t - p)).length : ℤ) := by
      rw [hlenD]; omega
    rw [if_pos hcondA, List.tail_drop]
    have h2 : t - p + 1 = t + 1 - p := by omega
    rw [h2]
    have hcondB : ¬ ((((values.take (t + 1)).drop (t + 1 - p)).length : ℤ) < (p : ℤ)) := by
      rw [List.length_drop, hlt1]; omega
    rw [if_neg hcondB, if_neg (show ¬ (t + 1 < p) by omega)]
  · have hcondA : ¬ ((p : ℤ) < (((values.take (t + 1)).drop (t - p)).length : ℤ)) := by
      rw [hlenD]; omega
    rw [if_neg hcondA]
    have ht0 : t - p = 0 := by omega
    have ht10 : t + 1 - p = 0 := by omega
    rw [ht0, ht10]
    by_cases hc : t + 1 < p
    · have hcondB : ((((values.take (t + 1)).drop 0).length : ℤ)) < (p : ℤ) := by
        rw [List.length_drop, hlt1]; omega
      rw [if_pos hcondB, if_pos hc]
    · have hcondB : ¬ (((((values.take (t + 1)).drop 0).length : ℤ)) < (p : ℤ)) := by
        rw [List.length_drop, hlt1]; omega
      rw [if_neg hcondB, if_neg hc]

/-- Characterization of every element of the `sma` loop output. -/
theorem smaOut_getElem (values : List ℚ) (p : ℕ) (hp : 0 < p) :
    ∀ (j t : ℕ), t + j < values.length →
      (smaOut (p : ℤ) ((values.take t).drop (t - p)) (values.drop t))[j]? =
        some (if t + j + 1 < p then none
          else some (((values.take (t + j + 1)).drop (t + j + 1 - p)).sum /
            (((p : ℤ)) : ℚ))) := by
  intro j
  induction j with
  | zero =>
    intro t ht
    rw [smaOut_step values p hp t (by omega)]
    rw [List.getElem?_cons_zero]
  | succ j ih =>
    intro t ht
    rw [smaOut_step values p hp t (by omega)]
    rw [List.getElem?_cons_succ]
    have h := ih (t + 1) (by omega)
    have he : t + 1 + j = t + (j + 1) := by omega
    rw [he] at h
    exact h

/-- C7: for `p ≥ 1` the SMA output has one entry per input value, every
entry at index `i1 < p-1` is undefined, and every entry at index
`i2 ≥ p-1` is the arithmetic mean of the trailing window
`values[i2-p+1..i2]`. -/
theorem sma_spec (values : List ℚ) (p i1 i2 : ℕ) (hp : 1 ≤ p)
    (hi1 : i1 < values.length) (hi1p : i1 + 1 < p)
    (hi2 : i2 < values.length) (hi2p : p ≤ i2 + 1) :
    ∃ r, sma values (p : ℤ) = .ok r ∧ r.length = values.length ∧
      r[i1]? = some none ∧
      r[i2]? = some (some (((values.take (i2 + 1)).drop (i2 + 1 - p)).sum /
        (p : ℚ))) := by
  have hne : (p : ℤ) ≠ 0 := by omega
  have hok : sma values (p : ℤ) = .ok (smaOut (p : ℤ) [] values) :=
    smaGo_eq_ok (p : ℤ) hne values []
  refine ⟨_, hok, smaOut_length _ values [], ?_, ?_⟩
  · have h := smaOut_getElem values p hp i1 0 (by omega)
    simp only [Nat.zero_sub, List.take_zero, List.drop_zero, List.drop_nil,
      Nat.zero_add] at h
    rw [h, if_pos (by omega)]
  · have h := smaOut_getElem values p hp i2 0 (by omega)
    simp only [Nat.zero_sub, List.take_zero, List.drop_zero, List.drop_nil,
      Nat.zero_add] at h
    rw [h, if_neg (by omega)]
    norm_num

/-- Witness for C7: values `[1, 2, 3]`, period `2`. -/
theorem sma_spec_witness :
    ∃ r, sma [1, 2, 3] ((2 : ℕ) : ℤ) = .ok r ∧
      r.length = ([1, 2, 3] : List ℚ).length ∧
      r[0]? = some none ∧
      r[2]? = some (some (((([1, 2, 3] : List ℚ).take (2 + 1)).drop (2 + 1 - 2)).sum /
        ((2 : ℕ) : ℚ))) :=
  sma_spec [1, 2, 3] 2 0 2 (by decide) (by decide) (by decide) (by decide)
    (by decide)

/-- The window `vals` never holds more defined values than the whole
series does. -/
theorem slopeVals_length_le (series : List (Option ℚ)) (lb : ℕ) :
    (slopeVals series lb).length ≤ (series.filterMap id).length := by
  unfold slopeVals
  conv_rhs => rw [← List.take_append_drop (series.length - lb) series]
  rw [List.filterMap_append, List.length_append]
  omega

/-- The variance term `var_x` of the linear-regression branch is positive
for `n ≥ 2` distinct sample points `0..n-1`. -/
theorem range_var_pos (n : ℕ) (hn : 2 ≤ n) :
    0 < (((List.range n).map (fun x : ℕ => (x : ℚ))).map
      (fun x => (x - ((List.range n).map (fun x : ℕ => (x : ℚ))).sum / (n : ℚ)) ^ 2)).sum := by
  have hxs_nonneg : ∀ y ∈ (List.range n).map (fun x : ℕ => (x : ℚ)), 0 ≤ y := by
    intro y hy
    rcases List.mem_map.mp hy with ⟨m, _, hf⟩
    rw [← hf]
    exact Nat.cast_nonneg m
  have h1mem : (1 : ℚ) ∈ (List.range n).map (fun x : ℕ => (x : ℚ)) := by
    apply List.mem_map.mpr
    refine ⟨1, ?_, by norm_num⟩
    exact List.mem_range.mpr (by omega)
  have hsum1 : (1 : ℚ) ≤ ((List.range n).map (fun x : ℕ => (x : ℚ))).sum :=
    List.single_le_sum hxs_nonneg 1 h1mem
  have hnq : (0 : ℚ) < (n : ℚ) := by
    have h0 : 0 < n := by omega
    exact_mod_cast h0
  have hmean_pos : 0 < ((List.range n).map (fun x : ℕ => (x : ℚ))).sum / (n : ℚ) :=
    div_pos (by linarith) hnq
  have h0xs : (0 : ℚ) ∈ (List.range n).map (fun x : ℕ => (x : ℚ)) := by
    apply List.mem_map.mpr
    refine ⟨0, ?_, by norm_num⟩
    exact List.mem_range.mpr (by omega)
  have h0mem : ((0 : ℚ) - ((List.range n).map (fun x : ℕ => (x : ℚ))).sum / (n : ℚ)) ^ 2 ∈
      ((List.range n).map (fun x : ℕ => (x : ℚ))).map
        (fun x => (x - ((List.range n).map (fun x : ℕ => (x : ℚ))).sum / (n : ℚ)) ^ 2) := by
    apply List.mem_map.mpr
    exact ⟨0, h0xs, rfl⟩
  have hsq_nonneg : ∀ y ∈ ((List.range n).map (fun x : ℕ => (x : ℚ))).map
      (fun x => (x - ((List.range n).map (fun x : ℕ => (x : ℚ))).sum / (n : ℚ)) ^ 2),
      0 ≤ y := by
    intro y hy
    rcases List.mem_map.mp hy with ⟨m, _, hf⟩
    rw [← hf]
    exact sq_nonneg _
  have hterm : 0 < ((0 : ℚ) - ((List.range n).map (fun x : ℕ => (x : ℚ))).sum / (n : ℚ)) ^ 2 := by
    rw [zero_sub, neg_sq]
    exact pow_pos hmean_pos 2
  calc (0 : ℚ) < _ := hterm
    _ ≤ _ := List.single_le_sum hsq_nonneg _ h0mem

/-- For a window of at least two values the linear-regression slope is
defined (`var_x ≠ 0`). -/
theorem linregSlope_isSome (vals : List ℚ) (h2 : 2 ≤ vals.length) :
    (linregSlope vals).isSome = true := by
  have h := range_var_pos vals.length h2
  simp only [linregSlope]
  rw [if_neg h.ne']
  rfl

/-- With `lookback ≥ 2` and enough defined values, `ema_slope` is the
chosen branch's raw slope, divided by the most recent value when
normalization is on and that value is nonzero. -/
theorem ema_slope_eq (series : List (Option ℚ)) (lookback : ℕ) (mode : String)
    (nrm : Bool) (hl : 2 ≤ lookback)
    (hlen : lookback ≤ (slopeVals series lookback).length) :
    ema_slope series (lookback : ℤ) mode nrm =
      (if mode = "linreg" then linregSlope (slopeVals series lookback)
       else some (meanDiffSlope (slopeVals series lookback))).map
        (fun s => if nrm = true ∧ (slopeVals series lookback).getLastD 0 ≠ 0
          then s / (slopeVals series lookback).getLastD 0 else s) := by
  simp only [ema_slope]
  rw [if_neg (show ¬ ((lookback : ℤ) < 2) by omega)]
  rw [Int.toNat_natCast]
  rw [if_neg (show ¬ (((slopeVals series lookback).length : ℤ) < (lookback : ℤ)) by omega)]
  cases hm : (if mode = "linreg" then linregSlope (slopeVals series lookback)
      else some (meanDiffSlope (slopeVals series lookback))) with
  | none => rfl
  | some s => exact (apply_ite Option.some _ _ _).symm

/-- C5: with `lookback ≥ 2`, `ema_slope` is `None` when fewer than
`lookback` defined values exist; in mode `"mean_diff"` it is the mean of
first differences over the last `lookback` defined values, in mode
`"linreg"` the (always-defined) ordinary-least-squares slope of those
values against indices `0..lookback-1`, in both cases divided by the most
recent value when `normalize` is set unless that value is zero; it is
`None` for any `lookback < 2`; and
`slope(mode="linreg", lookback=3, values=[1,2,3], normalize=True) = 1/3`. -/
theorem ema_slope_modes_spec (series : List (Option ℚ)) (lookback : ℕ)
    (mode : String) (nrm : Bool) (lb2 : ℤ) (hl : 2 ≤ lookback)
    (hlb2 : lb2 < 2) :
    ((series.filterMap id).length < lookback →
      ema_slope series (lookback : ℤ) mode nrm = none) ∧
    (lookback ≤ (slopeVals series lookback).length →
      ema_slope series (lookback : ℤ) "mean_diff" nrm =
        some (if nrm = true ∧ (slopeVals series lookback).getLastD 0 ≠ 0
          then meanDiffSlope (slopeVals series lookback) /
            (slopeVals series lookback).getLastD 0
          else meanDiffSlope (slopeVals series lookback))) ∧
    (lookback ≤ (slopeVals series lookback).length →
      (linregSlope (slopeVals series lookback)).isSome = true ∧
      ema_slope series (lookback : ℤ) "linreg" nrm =
        (linregSlope (slopeVals series lookback)).map
          (fun s => if nrm = true ∧ (slopeVals series lookback).getLastD 0 ≠ 0
            then s / (slopeVals series lookback).getLastD 0 else s)) ∧
    ema_slope series lb2 mode nrm = none ∧
    ema_slope [some 1, some 2, some 3] 3 "linreg" true = some (1 / 3) := by
  refine ⟨?_, ?_, ?_, ?_, ?_⟩
  · intro hfew
    have hle := slopeVals_length_le series lookback
    simp only [ema_slope]
    rw [if_neg (show ¬ ((lookback : ℤ) < 2) by omega)]
    rw [Int.toNat_natCast]
    rw [if_pos (show ((slopeVals series lookback).length : ℤ) < (lookback : ℤ) by omega)]
  · intro hlen
    rw [ema_slope_eq series lookback "mean_diff" nrm hl hlen]
    rw [if_neg (by decide)]
    rfl
  · intro hlen
    refine ⟨linregSlope_isSome _ (by omega), ?_⟩
    rw [ema_slope_eq series lookback "linreg" nrm hl hlen]
    rw [if_pos rfl]
  · simp only [ema_slope]
    rw [if_pos hlb2]
  · norm_num +decide [ema_slope, slopeVals, linregSlope, List.range_succ,
      List.filterMap_cons, List.filterMap_nil]

/-- Witness for C5 at `series = [1, 2, 3]`, `lookback = 3`. -/
theorem ema_slope_modes_spec_witness :
    ((([some 1, some 2, some 3] : List (Option ℚ)).filterMap id).length < 3 →
      ema_slope [some 1, some 2, some 3] ((3 : ℕ) : ℤ) "linreg" true = none) ∧
    (3 ≤ (slopeVals [some 1, some 2, some 3] 3).length →
      ema_slope [some 1, some 2, some 3] ((3 : ℕ) : ℤ) "mean_diff" true =
        some (if true = true ∧ (slopeVals [some 1, some 2, some 3] 3).getLastD 0 ≠ 0
          then meanDiffSlope (slopeVals [some 1, some 2, some 3] 3) /
            (slopeVals [some 1, some 2, some 3] 3).getLastD 0
          else meanDiffSlope (slopeVals [some 1, some 2, some 3] 3))) ∧
    (3 ≤ (slopeVals [some 1, some 2, some 3] 3).length →
      (linregSlope (slopeVals [some 1, some 2, some 3] 3)).isSome = true ∧
      ema_slope [some 1, some 2, some 3] ((3 : ℕ) : ℤ) "linreg" true =
        (linregSlope (slopeVals [some 1, some 2, some 3] 3)).map
          (fun s => if true = true ∧ (slopeVals [some 1, some 2, some 3] 3).getLastD 0 ≠ 0
            then s / (slopeVals [some 1, some 2, some 3] 3).getLastD 0 else s)) ∧
    ema_slope [some 1, some 2, some 3] 1 "linreg" true = none ∧
    ema_slope [some 1, some 2, some 3] 3 "linreg" true = some (1 / 3) :=
  ema_slope_modes_spec [some 1, some 2, some 3] 3 "linreg" true 1
    (by decide) (by decide)

/-- A `some` result of `ema_slope` needs `lookback ≥ 2` and at least
`lookback` defined values in the window. -/
theorem ema_slope_some_conds (series : List (Option ℚ)) (lookback : ℤ)
    (mode : String) (nrm : Bool) (s : ℚ)
    (h : ema_slope series lookback mode nrm = some s) :
    ¬ (lookback < 2) ∧
      ¬ (((slopeVals series lookback.toNat).length : ℤ) < lookback) := by
  by_cases h1 : lookback < 2
  · simp only [ema_slope] at h
    rw [if_pos h1] at h
    simp at h
  · by_cases h2 : ((slopeVals series lookback.toNat).length : ℤ) < lookback
    · simp only [ema_slope] at h
      rw [if_neg h1, if_pos h2] at h
      simp at h
    · exact ⟨h1, h2⟩

/-- The `all`-over-`range` check of `slope_ok` is exactly `Chain'` of the
comparison over the window. -/
theorem all_range_iff_chain (vals : List ℚ) (r : ℚ → ℚ → Prop)
    [DecidableRel r] :
    ((List.range (vals.length - 1)).all
      (fun i => decide (r (vals.getD i 0) (vals.getD (i + 1) 0))) = true) ↔
      vals.Chain' r := by
  rw [List.all_eq_true, List.chain'_iff_get]
  constructor
  · intro h i hi
    have h2 := h i (List.mem_range.mpr hi)
    rw [decide_eq_true_eq] at h2
    have e1 : vals.getD i 0 = vals.get ⟨i, by omega⟩ :=
      (List.getD_eq_getElem vals 0 (by omega)).trans
        (List.get_eq_getElem vals ⟨i, by omega⟩).symm
    have e2 : vals.getD (i + 1) 0 = vals.get ⟨i + 1, by omega⟩ :=
      (List.getD_eq_getElem vals 0 (by omega)).trans
        (List.get_eq_getElem vals ⟨i + 1, by omega⟩).symm
    rw [e1, e2] at h2
    exact h2
  · intro h i hi
    have hilt := List.mem_range.mp hi
    rw [decide_eq_true_eq]
    have e1 : vals.getD i 0 = vals.get ⟨i, by omega⟩ :=
      (List.getD_eq_getElem vals 0 (by omega)).trans
        (List.get_eq_getElem vals ⟨i, by omega⟩).symm
    have e2 : vals.getD (i + 1) 0 = vals.get ⟨i + 1, by omega⟩ :=
      (List.getD_eq_getElem vals 0 (by omega)).trans
        (List.get_eq_getElem vals ⟨i + 1, by omega⟩).symm
    rw [e1, e2]
    exact h i hilt

/-- C6: `slope_ok` returns both flags false when the slope is undefined;
otherwise `long_ok` iff the slope clears `min_slope` (and, with
`strict_monotonic`, the window is strictly increasing), `short_ok` iff the
slope clears `-min_slope` downward (and, with the flag, strictly
decreasing); in particular a window whose slope clears `min_slope` but is
not strictly monotonic yields both flags false under
`strict_monotonic=True`. -/
theorem slope_ok_spec (series : List (Option ℚ)) (lookback : ℤ)
    (min_slope : ℚ) (mode : String) (nrm : Bool) (s : ℚ)
    (series2 : List (Option ℚ)) (lb2 : ℤ) (ms2 : ℚ) (mode2 : String)
    (nrm2 : Bool) (strict2 : Bool)
    (hs : ema_slope series lookback mode nrm = some s)
    (hnone : ema_slope series2 lb2 mode2 nrm2 = none) :
    slope_ok series2 lb2 ms2 mode2 nrm2 strict2 = (false, false) ∧
    slope_ok series lookback min_slope mode nrm false =
      (decide (min_slope ≤ s), decide (s ≤ -min_slope)) ∧
    slope_ok series lookback min_slope mode nrm true =
      (decide (min_slope ≤ s) &&
        decide ((slopeVals series lookback.toNat).Chain' (fun a b => a < b)),
       decide (s ≤ -min_slope) &&
        decide ((slopeVals series lookback.toNat).Chain' (fun a b => b < a))) ∧
    slope_ok [some 1, some 1, some 3] 3 0 "mean_diff" false true =
      (false, false) := by
  have hconds := ema_slope_some_conds series lookback mode nrm s hs
  refine ⟨?_, ?_, ?_, ?_⟩
  · simp [slope_ok, hnone]
  · simp [slope_ok, hs]
  · simp only [slope_ok, hs]
    rw [if_pos trivial, if_neg hconds.2]
    have hinc : ((List.range ((slopeVals series lookback.toNat).length - 1)).all
        (fun i => decide ((slopeVals series lookback.toNat).getD i 0 <
          (slopeVals series lookback.toNat).getD (i + 1) 0))) =
        decide ((slopeVals series lookback.toNat).Chain' (fun a b => a < b)) := by
      rw [Bool.eq_iff_iff, decide_eq_true_eq]
      exact all_range_iff_chain _ _
    have hdec : ((List.range ((slopeVals series lookback.toNat).length - 1)).all
        (fun i => decide ((slopeVals series lookback.toNat).getD (i + 1) 0 <
          (slopeVals series lookback.toNat).getD i 0))) =
        decide ((slopeVals series lookback.toNat).Chain' (fun a b => b < a)) := by
      rw [Bool.eq_iff_iff, decide_eq_true_eq]
      exact all_range_iff_chain _ (fun a b => b < a)
    rw [hinc, hdec]
  · norm_num +decide [slope_ok, ema_slope, slopeVals, meanDiffSlope,
      List.range_succ, List.filterMap_cons, List.filterMap_nil]

/-- Witness for C6 at concrete windows. -/
theorem slope_ok_spec_witness :
    slope_ok [] 3 0 "mean_diff" false false = (false, false) ∧
    slope_ok [some 1, some 2, some 3] 3 0 "mean_diff" false false =
      (decide ((0 : ℚ) ≤ 1), decide ((1 : ℚ) ≤ -0)) ∧
    slope_ok [some 1, some 2, some 3] 3 0 "mean_diff" false true =
      (decide ((0 : ℚ) ≤ 1) &&
        decide ((slopeVals [some 1, some 2, some 3] (Int.toNat 3)).Chain'
          (fun a b => a < b)),
       decide ((1 : ℚ) ≤ -0) &&
        decide ((slopeVals [some 1, some 2, some 3] (Int.toNat 3)).Chain'
          (fun a b => b < a))) ∧
    slope_ok [some 1, some 1, some 3] 3 0 "mean_diff" false true =
      (false, false) :=
  slope_ok_spec [some 1, some 2, some 3] 3 0 "mean_diff" false 1 [] 3 0
    "mean_diff" false false
    (by norm_num +decide [ema_slope, slopeVals, meanDiffSlope,
      List.range_succ, List.filterMap_cons, List.filterMap_nil])
    (by norm_num +decide [ema_slope, slopeVals, meanDiffSlope,
      List.range_succ, List.filterMap_cons, List.filterMap_nil])

end BinanceEmaMa
